import Mathlib

/-!
Verification development for the `seqalign` dynamic-programming edit-distance
engine (`src/dynprog.rs`).

The engine (`Matrix::align`, `Matrix::distance`, `Matrix::edit_script`) is
embedded shallowly:

* `SeqPair`, `Mat` mirror the Rust `SeqPair` and `Matrix` structs (the
  `ops` reference of the Rust struct is passed as an explicit argument).
* The pluggable operation set (`EditOperations` / `EditOperation`, whose
  source lives outside `src/`) is kept abstract as a record `EditOps` of the
  four capabilities the engine calls: `apply`, `backtrack` (set level),
  `opBacktrack` and `opCost` (operation level).
* `align` is the fill loop: the two Rust `for` loops become the explicit
  cell enumeration `cellOrder`, folded by `fillCells`; the `expect` panic on
  an inapplicable operation becomes `Option.none`.
* `edit_script`'s `while let` loop becomes the fuel-indexed recursion
  `editGoT`, which also records the final cell of the backward walk; the
  Rust outcomes are the constructors of `ScriptResult`: a returned script,
  the early `None` return (`noScript`), the `assert_eq!` panic (`panicked`),
  and fuel exhaustion (`fuelOut`, which the Rust loop does not have — the
  termination theorem shows enough fuel always exists under the documented
  backtracking precondition).
-/

namespace Seqalign

/-- The pair of borrowed sequences being aligned (Rust `SeqPair`). -/
structure SeqPair (T : Type) where
  source : List T
  target : List T
deriving Repr

/-- The cost-matrix value handed to the operation set (Rust `Matrix`,
minus the `ops` reference which is passed separately). -/
structure Mat (T : Type) where
  pair : SeqPair T
  matrix : List (List Nat)
deriving Repr

/-- The operation-set interface the engine calls (Rust `EditOperations`
plus the two `EditOperation` methods used by `edit_script`). -/
structure EditOps (T O : Type) where
  apply : Mat T → Nat → Nat → Option Nat
  backtrack : Mat T → Nat → Nat → Option O
  opBacktrack : O → Nat → Nat → Option (Nat × Nat)
  opCost : O → Nat

/-- Read cell (i, j), `none` when out of bounds (a Rust index panic). -/
def Mat.cell? {T : Type} (M : Mat T) (i j : Nat) : Option Nat :=
  (M.matrix[i]?).bind (fun r => r[j]?)

/-- Read cell (i, j) with default 0 (used by the spec-modelled operations,
which only ever read in-bounds predecessor cells). -/
def Mat.cellD {T : Type} (M : Mat T) (i j : Nat) : Nat :=
  (M.cell? i j).getD 0

/-- Rust `matrix[i][j] = v` (no-op when out of bounds; the engine only
writes in bounds). -/
def Mat.setCell {T : Type} (M : Mat T) (i j v : Nat) : Mat T :=
  { M with matrix := M.matrix.set i ((M.matrix.getD i []).set j v) }

/-- Rust `Matrix::distance`: `matrix[matrix.len()-1][matrix[0].len()-1]`,
with the index panics modelled as `none`. -/
def Mat.distance? {T : Type} (M : Mat T) : Option Nat :=
  (M.matrix[0]?).bind (fun r0 => M.cell? (M.matrix.length - 1) (r0.length - 1))

/-- The order in which `Matrix::align` visits cells: row 0 for
`target_idx in 1..target_len`, then `source_idx in 1..source_len` crossed
with `target_idx in 0..target_len`. -/
def cellOrder (sl tl : Nat) : List (Nat × Nat) :=
  (List.range' 1 (tl - 1)).map (fun j => (0, j)) ++
    (List.range' 1 (sl - 1)).flatMap (fun i => (List.range tl).map (fun j => (i, j)))

/-- Fill the listed cells in order, each with the operation set's `apply`
on the matrix as filled so far; the Rust `expect` panic is `none`. -/
def fillCells {T O : Type} (ops : EditOps T O) :
    List (Nat × Nat) → Mat T → Option (Mat T)
  | [], M => some M
  | (i, j) :: rest, M =>
    match ops.apply M i j with
    | none => none
    | some v => fillCells ops rest (M.setCell i j v)

/-- The freshly allocated matrix: `vec![vec![0; target_len]; source_len]`. -/
def initMat {T : Type} (source target : List T) : Mat T :=
  { pair := ⟨source, target⟩
    matrix := List.replicate (source.length + 1) (List.replicate (target.length + 1) 0) }

/-- Rust `Matrix::align`. -/
def align {T O : Type} (ops : EditOps T O) (source target : List T) : Option (Mat T) :=
  fillCells ops (cellOrder (source.length + 1) (target.length + 1)) (initMat source target)

/-- Possible outcomes of one `edit_script` call. -/
inductive ScriptResult (O : Type) where
  | script (s : List O)
  | noScript
  | panicked
  | fuelOut
deriving Repr, DecidableEq

/-- The `while let` loop of `Matrix::edit_script`, with fuel, also
returning the final `(source_idx, target_idx)` of the walk.  `script.push`
is `acc ++ [op]` and the final `script.reverse()` is applied on exit. -/
def editGoT {T O : Type} (ops : EditOps T O) (M : Mat T) :
    Nat → Nat → Nat → List O → ScriptResult O × Nat × Nat
  | 0, i, j, _ => (.fuelOut, i, j)
  | fuel + 1, i, j, acc =>
    match ops.backtrack M i j with
    | none => if i = 0 ∧ j = 0 then (.script acc.reverse, i, j) else (.panicked, i, j)
    | some op =>
      match ops.opBacktrack op i j with
      | none => (.noScript, i, j)
      | some (i', j') =>
        if i' = 0 ∧ j' = 0 then (.script (acc ++ [op]).reverse, i', j')
        else editGoT ops M fuel i' j' (acc ++ [op])

/-- Rust `Matrix::edit_script`, starting from `(source.len(), target.len())`. -/
def editScriptT {T O : Type} (ops : EditOps T O) (M : Mat T) (fuel : Nat) :
    ScriptResult O × Nat × Nat :=
  editGoT ops M fuel M.pair.source.length M.pair.target.length []

/-- Everything C2 asserts about one `align` run, bundled. -/
def AlignSpec {T O : Type} (ops : EditOps T O) (source target : List T) (M : Mat T) : Prop :=
  (M.matrix.length = source.length + 1 ∧ ∀ r ∈ M.matrix, r.length = target.length + 1) ∧
  M.cell? 0 0 = some 0 ∧
  ((0, 0) ∉ cellOrder (source.length + 1) (target.length + 1)) ∧
  (cellOrder (source.length + 1) (target.length + 1)).Nodup ∧
  (∀ i j : Nat, ((i, j) ∈ cellOrder (source.length + 1) (target.length + 1)) ↔
    (i ≤ source.length ∧ j ≤ target.length ∧ ¬(i = 0 ∧ j = 0))) ∧
  cellOrder (source.length + 1) (target.length + 1) =
    (List.range' 1 target.length).map (fun j => (0, j)) ++
      (List.range' 1 source.length).flatMap
        (fun i => (List.range (target.length + 1)).map (fun j => (i, j))) ∧
  (∀ i j : Nat, i ≤ source.length → j ≤ target.length → ¬(i = 0 ∧ j = 0) →
    ∃ cs1 cs2 Mpre v,
      cellOrder (source.length + 1) (target.length + 1) = cs1 ++ (i, j) :: cs2 ∧
      (i, j) ∉ cs2 ∧ fillCells ops cs1 (initMat source target) = some Mpre ∧
      ops.apply Mpre i j = some v ∧ M.cell? i j = some v)

/-- State-explicit rendering of the same loop: `edit_script` takes `&self`
(a shared borrow with no interior mutability), so the matrix rows are
threaded through each iteration and returned alongside the result. -/
def editGoS {T O : Type} (ops : EditOps T O) (pair : SeqPair T) :
    Nat → List (List Nat) → Nat → Nat → List O →
      (ScriptResult O × Nat × Nat) × List (List Nat)
  | 0, st, i, j, _ => ((.fuelOut, i, j), st)
  | fuel + 1, st, i, j, acc =>
    match ops.backtrack ⟨pair, st⟩ i j with
    | none =>
      if i = 0 ∧ j = 0 then ((.script acc.reverse, i, j), st)
      else ((.panicked, i, j), st)
    | some op =>
      match ops.opBacktrack op i j with
      | none => ((.noScript, i, j), st)
      | some (i', j') =>
        if i' = 0 ∧ j' = 0 then ((.script (acc ++ [op]).reverse, i', j'), st)
        else editGoS ops pair fuel st i' j' (acc ++ [op])

/-- State-explicit `edit_script`. -/
def editScriptS {T O : Type} (ops : EditOps T O) (M : Mat T) (fuel : Nat) :
    (ScriptResult O × Nat × Nat) × List (List Nat) :=
  editGoS ops M.pair fuel M.matrix M.pair.source.length M.pair.target.length []

/-- An operation set whose `apply` always answers cost 1 and whose
`backtrack` never finds an operation (used to exercise the engine). -/
def constOps : EditOps Nat Unit :=
  ⟨fun _ _ _ => some 1, fun _ _ _ => none, fun _ _ _ => none, fun _ => 0⟩

/-- An operation set whose `backtrack` always offers an operation that has
no predecessor (used to exercise the early-return path). -/
def someOps : EditOps Nat Unit :=
  ⟨fun _ _ _ => some 1, fun _ _ _ => some (), fun _ _ _ => none, fun _ => 0⟩

/-- The matrix `align` produces for two empty sequences. -/
def emptyAligned (T : Type) : Mat T := ⟨⟨[], []⟩, [[0]]⟩

/-- Modelled from the spec: the operation kinds of the default
configuration (`ops`/`measures` modules, not under `src/`): match,
substitute, insert, delete. -/
inductive EOp where
  | emat
  | esub
  | eins
  | edel
deriving Repr, DecidableEq

/-- Modelled from the spec: the independently weighted costs of the
standard operation set (`measures::levensthein` constructor). -/
structure LevenCosts where
  cmat : Nat
  csub : Nat
  cins : Nat
  cdel : Nat
deriving Repr, DecidableEq

/-- Modelled from the spec: cost contribution of one operation kind. -/
def opCostE (cs : LevenCosts) : EOp → Nat
  | .emat => cs.cmat
  | .esub => cs.csub
  | .eins => cs.cins
  | .edel => cs.cdel

/-- Modelled from the spec: `apply-at(matrix, i, j)` of each operation —
the incremental cost plus the already-stored predecessor value, or `none`
when inapplicable (match needs equal elements; all need their predecessor
inside the matrix). -/
def applyAtOp {T : Type} [DecidableEq T] (cs : LevenCosts) (M : Mat T) :
    EOp → Nat → Nat → Option Nat
  | .emat, i, j =>
    if 1 ≤ i ∧ 1 ≤ j then
      match M.pair.source[i - 1]?, M.pair.target[j - 1]? with
      | some a, some b =>
        if a = b then some (cs.cmat + M.cellD (i - 1) (j - 1)) else none
      | _, _ => none
    else none
  | .esub, i, j =>
    if 1 ≤ i ∧ 1 ≤ j then
      match M.pair.source[i - 1]?, M.pair.target[j - 1]? with
      | some _, some _ => some (cs.csub + M.cellD (i - 1) (j - 1))
      | _, _ => none
    else none
  | .eins, i, j =>
    if 1 ≤ j then
      match M.pair.target[j - 1]? with
      | some _ => some (cs.cins + M.cellD i (j - 1))
      | none => none
    else none
  | .edel, i, j =>
    if 1 ≤ i then
      match M.pair.source[i - 1]? with
      | some _ => some (cs.cdel + M.cellD (i - 1) j)
      | none => none
    else none

/-- Modelled from the spec: `backtrack-from(i, j)` of each operation — the
predecessor cell, or `none` when the move is invalid at this position. -/
def opBacktrackFromE : EOp → Nat → Nat → Option (Nat × Nat)
  | .emat, i, j => if 1 ≤ i ∧ 1 ≤ j then some (i - 1, j - 1) else none
  | .esub, i, j => if 1 ≤ i ∧ 1 ≤ j then some (i - 1, j - 1) else none
  | .eins, i, j => if 1 ≤ j then some (i, j - 1) else none
  | .edel, i, j => if 1 ≤ i then some (i - 1, j) else none

/-- Declaration order of the standard operation set. -/
def levenList : List EOp := [.emat, .esub, .eins, .edel]

/-- Minimum of a list of candidate costs, `none` when empty. -/
def listMin : List Nat → Option Nat
  | [] => none
  | x :: xs => some (xs.foldl Nat.min x)

/-- Modelled from the spec: the set-level `apply` — minimum cost over the
applicable operations, `none` when no operation applies. -/
def setApplyE {T : Type} [DecidableEq T] (cs : LevenCosts) (M : Mat T)
    (i j : Nat) : Option Nat :=
  listMin (levenList.filterMap (fun o => applyAtOp cs M o i j))

/-- Modelled from the spec: the set-level `backtrack-at` — `none` at the
origin, else the first operation (declaration order) whose candidate cost
equals the stored cell value. -/
def setBacktrackE {T : Type} [DecidableEq T] (cs : LevenCosts) (M : Mat T)
    (i j : Nat) : Option EOp :=
  if i = 0 ∧ j = 0 then none
  else levenList.find? (fun o => decide (applyAtOp cs M o i j = some (M.cellD i j)))

/-- Modelled from the spec: the standard pluggable operation set with
independently weighted match/substitute/insert/delete costs. -/
def levenOps {T : Type} [DecidableEq T] (cs : LevenCosts) : EditOps T EOp :=
  ⟨fun M i j => setApplyE cs M i j,
   fun M i j => setBacktrackE cs M i j,
   opBacktrackFromE,
   opCostE cs⟩

/-- Replay a script against the two sequences: a cursor into `source`, a
cursor into `target`, and the output built so far.  match copies a source
element (demanding it equal the target element), substitute and insert
emit the target element, delete consumes a source element. -/
def replaySeg {T : Type} [DecidableEq T] (source target : List T) :
    Nat → Nat → List EOp → List T → Option (Nat × Nat × List T)
  | i, j, [], out => some (i, j, out)
  | i, j, .emat :: rest, out =>
    (source[i]?).bind fun a => (target[j]?).bind fun b =>
      if a = b then replaySeg source target (i + 1) (j + 1) rest (out ++ [a])
      else none
  | i, j, .esub :: rest, out =>
    (source[i]?).bind fun _ => (target[j]?).bind fun b =>
      replaySeg source target (i + 1) (j + 1) rest (out ++ [b])
  | i, j, .eins :: rest, out =>
    (target[j]?).bind fun b =>
      replaySeg source target i (j + 1) rest (out ++ [b])
  | i, j, .edel :: rest, out =>
    (source[i]?).bind fun _ =>
      replaySeg source target (i + 1) j rest out

/-- Apply a whole script to `source`: replay it from the start and demand
that it consumes all of `source` and reaches the end of `target`. -/
def replay {T : Type} [DecidableEq T] (s : List EOp) (source target : List T) :
    Option (List T) :=
  (replaySeg source target 0 0 s []).bind fun p =>
    if p.1 = source.length ∧ p.2.1 = target.length then some p.2.2 else none

section FillLemmas

variable {T O : Type}

/-- Shape of an `(m+1) × (n+1)` matrix. -/
def Shape (M : Mat T) (m n : Nat) : Prop :=
  M.matrix.length = m + 1 ∧ ∀ r ∈ M.matrix, r.length = n + 1

lemma setCell_pair (M : Mat T) (i j v : Nat) : (M.setCell i j v).pair = M.pair := rfl

lemma fillCells_pair (ops : EditOps T O) :
    ∀ (cells : List (Nat × Nat)) (M M' : Mat T),
      fillCells ops cells M = some M' → M'.pair = M.pair := by
  intro cells
  induction cells with
  | nil => intro M M' h; simp [fillCells] at h; simp [h.symm]
  | cons c rest ih =>
    intro M M' h
    obtain ⟨i, j⟩ := c
    simp only [fillCells] at h
    cases happ : ops.apply M i j with
    | none => rw [happ] at h; simp at h
    | some v => rw [happ] at h; simpa [setCell_pair] using ih _ _ h

lemma setCell_out_of_range {M : Mat T} {i : Nat} (hi : ¬ i < M.matrix.length)
    (j v : Nat) : M.setCell i j v = M := by
  have h : M.matrix.set i ((M.matrix.getD i []).set j v) = M.matrix :=
    List.set_eq_of_length_le (by omega)
  show Mat.mk M.pair (M.matrix.set i ((M.matrix.getD i []).set j v)) = M
  rw [h]

lemma getD_row_eq {M : Mat T} {i : Nat} (hi : i < M.matrix.length) :
    M.matrix.getD i [] = M.matrix.get ⟨i, hi⟩ := by
  simp [List.getD_eq_getElem?_getD, List.getElem?_eq_getElem hi]

lemma shape_setCell {M : Mat T} {m n : Nat} (hs : Shape M m n) (i j v : Nat) :
    Shape (M.setCell i j v) m n := by
  by_cases hi : i < M.matrix.length
  · constructor
    · simpa [Mat.setCell] using hs.1
    · intro r hrmem
      rcases List.mem_or_eq_of_mem_set hrmem with h | h
      · exact hs.2 r h
      · subst h
        rw [List.length_set, getD_row_eq hi]
        exact hs.2 _ (List.get_mem M.matrix i hi)
  · rw [setCell_out_of_range hi]
    exact hs

lemma fillCells_shape (ops : EditOps T O) {m n : Nat} :
    ∀ (cells : List (Nat × Nat)) (M M' : Mat T),
      Shape M m n → fillCells ops cells M = some M' → Shape M' m n := by
  intro cells
  induction cells with
  | nil => intro M M' hs h; simp only [fillCells, Option.some.injEq] at h; rwa [← h]
  | cons c rest ih =>
    intro M M' hs h
    obtain ⟨i, j⟩ := c
    simp only [fillCells] at h
    cases happ : ops.apply M i j with
    | none => rw [happ] at h; simp at h
    | some v =>
      rw [happ] at h
      exact ih _ _ (shape_setCell hs i j v) h

lemma cell?_setCell_ne {M : Mat T} {i j i' j' : Nat} (hne : (i, j) ≠ (i', j'))
    (v : Nat) : (M.setCell i j v).cell? i' j' = M.cell? i' j' := by
  by_cases hi : i < M.matrix.length
  · by_cases hii : i = i'
    · subst hii
      have hjj : j ≠ j' := by intro h; exact hne (by rw [h])
      simp only [Mat.cell?, Mat.setCell]
      rw [List.getElem?_set_self hi, getD_row_eq hi]
      rw [List.getElem?_eq_getElem hi]
      simp only [Option.some_bind]
      rw [List.getElem?_set_ne hjj]
      simp [List.get_eq_getElem]
    · simp only [Mat.cell?, Mat.setCell]
      rw [List.getElem?_set_ne hii]
  · rw [setCell_out_of_range hi]

lemma cell?_setCell_self {M : Mat T} {i j : Nat} (hi : i < M.matrix.length)
    (hj : j < (M.matrix.get ⟨i, hi⟩).length) (v : Nat) :
    (M.setCell i j v).cell? i j = some v := by
  simp only [Mat.cell?, Mat.setCell, getD_row_eq hi]
  rw [List.getElem?_set_self hi]
  simp only [Option.some_bind]
  rw [List.getElem?_set_self (by simpa [List.get_eq_getElem] using hj)]

lemma fillCells_frame (ops : EditOps T O) :
    ∀ (cells : List (Nat × Nat)) (M M' : Mat T) (i j : Nat),
      (i, j) ∉ cells → fillCells ops cells M = some M' →
      M'.cell? i j = M.cell? i j := by
  intro cells
  induction cells with
  | nil => intro M M' i j _ h; simp only [fillCells, Option.some.injEq] at h; rw [← h]
  | cons c rest ih =>
    intro M M' i j hmem h
    obtain ⟨i₀, j₀⟩ := c
    simp only [fillCells] at h
    cases happ : ops.apply M i₀ j₀ with
    | none => rw [happ] at h; simp at h
    | some v =>
      rw [happ] at h
      have h1 : (i, j) ∉ rest := fun hc => hmem (List.mem_cons_of_mem _ hc)
      have h2 : (i₀, j₀) ≠ (i, j) := by
        intro hc; exact hmem (hc ▸ List.mem_cons_self _ _)
      rw [ih _ _ _ _ h1 h, cell?_setCell_ne h2]

lemma fillCells_append (ops : EditOps T O) :
    ∀ (cs1 cs2 : List (Nat × Nat)) (M : Mat T),
      fillCells ops (cs1 ++ cs2) M = (fillCells ops cs1 M).bind (fillCells ops cs2) := by
  intro cs1
  induction cs1 with
  | nil => intro cs2 M; simp [fillCells]
  | cons c rest ih =>
    intro cs2 M
    obtain ⟨i, j⟩ := c
    simp only [List.cons_append, fillCells]
    cases happ : ops.apply M i j with
    | none => rfl
    | some v => exact ih cs2 (M.setCell i j v)

lemma fillCells_none_iff (ops : EditOps T O) :
    ∀ (cells : List (Nat × Nat)) (M : Mat T),
      fillCells ops cells M = none ↔
        ∃ cs1 i j cs2 Mpre, cells = cs1 ++ (i, j) :: cs2 ∧
          fillCells ops cs1 M = some Mpre ∧ ops.apply Mpre i j = none := by
  intro cells
  induction cells with
  | nil =>
    intro M
    constructor
    · intro h; simp [fillCells] at h
    · rintro ⟨cs1, i, j, cs2, _, hcells, _⟩
      exact absurd hcells (by simp)
  | cons c rest ih =>
    intro M
    obtain ⟨i₀, j₀⟩ := c
    constructor
    · intro h
      simp only [fillCells] at h
      cases happ : ops.apply M i₀ j₀ with
      | none =>
        exact ⟨[], i₀, j₀, rest, M, by simp, by simp [fillCells], happ⟩
      | some v =>
        rw [happ] at h
        obtain ⟨cs1, i, j, cs2, Mpre, hcells, hfill, hnone⟩ := (ih _).1 h
        refine ⟨(i₀, j₀) :: cs1, i, j, cs2, Mpre, by simp [hcells], ?_, hnone⟩
        simp [fillCells, happ, hfill]
    · rintro ⟨cs1, i, j, cs2, Mpre, hcells, hfill, hnone⟩
      rw [hcells, fillCells_append, hfill]
      simp [fillCells, hnone]

lemma mem_cellOrder {m n i j : Nat} :
    (i, j) ∈ cellOrder (m + 1) (n + 1) ↔ i ≤ m ∧ j ≤ n ∧ ¬(i = 0 ∧ j = 0) := by
  simp only [cellOrder, Nat.add_sub_cancel, List.mem_append, List.mem_map,
    List.mem_flatMap, List.mem_range'_1, List.mem_range, Prod.mk.injEq]
  constructor
  · rintro (⟨a, ha, rfl, rfl⟩ | ⟨a, ha, b, hb, rfl, rfl⟩) <;> omega
  · rintro ⟨hi, hj, hz⟩
    by_cases h0 : i = 0
    · subst h0
      exact Or.inl ⟨j, by omega, rfl, rfl⟩
    · exact Or.inr ⟨i, by omega, j, by omega, rfl, rfl⟩

lemma nodup_cellOrder (m n : Nat) : (cellOrder (m + 1) (n + 1)).Nodup := by
  simp only [cellOrder, Nat.add_sub_cancel]
  refine List.Nodup.append ?_ ?_ ?_
  · exact (List.nodup_range' 1 n).map (fun a b h => congrArg Prod.snd h)
  · rw [List.nodup_flatMap]
    constructor
    · intro x _
      exact (List.nodup_range _).map (fun a b h => congrArg Prod.snd h)
    · refine (List.pairwise_lt_range' 1 m).imp ?_
      intro a b hab x hxa hxb
      simp only [List.mem_map] at hxa hxb
      obtain ⟨ja, _, rfl⟩ := hxa
      obtain ⟨jb, _, heq⟩ := hxb
      have : b = a := congrArg Prod.fst heq
      omega
  · intro x hx1 hx2
    simp only [List.mem_map] at hx1
    obtain ⟨ja, _, rfl⟩ := hx1
    simp only [List.mem_flatMap, List.mem_map, List.mem_range'_1] at hx2
    obtain ⟨a, ha, jb, _, heq⟩ := hx2
    have : a = 0 := congrArg Prod.fst heq
    omega

lemma initMat_shape (source target : List T) :
    Shape (initMat source target) source.length target.length := by
  constructor
  · simp [initMat]
  · intro r hr
    rw [List.eq_of_mem_replicate hr]
    simp

lemma initMat_cell?_origin (source target : List T) :
    (initMat source target).cell? 0 0 = some 0 := by
  simp [initMat, Mat.cell?, List.getElem?_replicate]

lemma align_pair {ops : EditOps T O} {source target : List T} {M : Mat T}
    (h : align ops source target = some M) : M.pair = ⟨source, target⟩ :=
  fillCells_pair ops _ _ _ h

lemma align_shape {ops : EditOps T O} {source target : List T} {M : Mat T}
    (h : align ops source target = some M) :
    Shape M source.length target.length :=
  fillCells_shape ops _ _ _ (initMat_shape source target) h

lemma origin_not_mem_cellOrder (m n : Nat) :
    ((0 : Nat), (0 : Nat)) ∉ cellOrder (m + 1) (n + 1) := by
  rw [mem_cellOrder]
  simp

lemma align_origin {ops : EditOps T O} {source target : List T} {M : Mat T}
    (h : align ops source target = some M) : M.cell? 0 0 = some 0 := by
  have hframe := fillCells_frame ops _ _ _ 0 0
    (origin_not_mem_cellOrder source.length target.length) h
  rw [hframe, initMat_cell?_origin]

lemma cell?_isSome_of_shape {M : Mat T} {m n i j : Nat}
    (hs : Shape M m n) (hi : i ≤ m) (hj : j ≤ n) : ∃ v, M.cell? i j = some v := by
  obtain ⟨hl, hr⟩ := hs
  have hi' : i < M.matrix.length := by omega
  have hrow := hr _ (List.get_mem M.matrix i hi')
  have hj' : j < (M.matrix.get ⟨i, hi'⟩).length := by omega
  refine ⟨(M.matrix.get ⟨i, hi'⟩).get ⟨j, hj'⟩, ?_⟩
  simp only [Mat.cell?, List.get_eq_getElem]
  rw [List.getElem?_eq_getElem hi']
  simp only [Option.some_bind]
  rw [List.getElem?_eq_getElem (by simpa [List.get_eq_getElem] using hj')]

lemma distance?_of_shape {M : Mat T} {m n : Nat} (hs : Shape M m n) :
    M.distance? = M.cell? m n := by
  obtain ⟨hl, hr⟩ := hs
  have h0 : 0 < M.matrix.length := by omega
  have hrow0 := hr _ (List.getElem_mem h0)
  simp [Mat.distance?, List.getElem?_eq_getElem h0, hl, hrow0]

end FillLemmas

section MainClaimsFill

variable {T O : Type}

/-- C1: for every operation set and input sequences of lengths `m` and `n`,
once `align` has produced a matrix, `distance()` reads exactly the value
stored at cell `(m, n)` (and that cell holds a value). -/
theorem C1_distance_is_final_cell (ops : EditOps T O) (source target : List T)
    (M : Mat T) (h : align ops source target = some M) :
    M.distance? = M.cell? source.length target.length ∧
      ∃ v, M.cell? source.length target.length = some v :=
  ⟨distance?_of_shape (align_shape h),
    cell?_isSome_of_shape (align_shape h) (Nat.le_refl _) (Nat.le_refl _)⟩

/-- C10: every matrix produced by `align` — including for empty inputs —
has at least one row and at least one column, and `distance()` never fails
on it. -/
theorem C10_distance_never_fails (ops : EditOps T O) (source target : List T)
    (M : Mat T) (h : align ops source target = some M) :
    1 ≤ M.matrix.length ∧ (∀ r ∈ M.matrix, 1 ≤ r.length) ∧
      ∃ v, M.distance? = some v := by
  obtain ⟨hl, hr⟩ := align_shape h
  refine ⟨by omega, fun r hrm => by have := hr r hrm; omega, ?_⟩
  rw [distance?_of_shape (align_shape h)]
  exact cell?_isSome_of_shape (align_shape h) (Nat.le_refl _) (Nat.le_refl _)

/-- Split a duplicate-free list at one of its members; the member does not
recur in the tail. -/
lemma split_at_mem {α : Type} {l : List α} {a : α} (hmem : a ∈ l)
    (hnd : l.Nodup) : ∃ s t, l = s ++ a :: t ∧ a ∉ t := by
  obtain ⟨s, t, rfl⟩ := List.append_of_mem hmem
  exact ⟨s, t, rfl, (List.nodup_cons.1 hnd.of_append_right).1⟩

/-- The value stored at a cell visited by the fill is the one `apply`
returned there, over the matrix as filled up to that point. -/
lemma fillCells_assign (ops : EditOps T O) {cs1 cs2 : List (Nat × Nat)}
    {i j m n : Nat} {M0 Mf : Mat T}
    (hshape : Shape M0 m n) (hi : i ≤ m) (hj : j ≤ n) (hnot : (i, j) ∉ cs2)
    (h : fillCells ops (cs1 ++ (i, j) :: cs2) M0 = some Mf) :
    ∃ Mpre v, fillCells ops cs1 M0 = some Mpre ∧
      ops.apply Mpre i j = some v ∧ Mf.cell? i j = some v := by
  rw [fillCells_append] at h
  cases hpre : fillCells ops cs1 M0 with
  | none => rw [hpre] at h; simp at h
  | some Mpre =>
    rw [hpre] at h
    simp only [Option.some_bind] at h
    simp only [fillCells] at h
    cases happ : ops.apply Mpre i j with
    | none => rw [happ] at h; simp at h
    | some v =>
      rw [happ] at h
      have hsh : Shape Mpre m n := fillCells_shape ops _ _ _ hshape hpre
      refine ⟨Mpre, v, rfl, happ, ?_⟩
      rw [fillCells_frame ops _ _ _ i j hnot h]
      have hi' : i < Mpre.matrix.length := by
        have := hsh.1; omega
      have hj' : j < (Mpre.matrix.get ⟨i, hi'⟩).length := by
        rw [hsh.2 _ (List.get_mem Mpre.matrix i hi')]; omega
      exact cell?_setCell_self hi' hj' v

/-- C2: `align` allocates an `(m+1) × (n+1)` matrix, leaves the origin cell
at 0 without ever calling `apply` on it, enumerates exactly the non-origin
cells — row 0 at columns `1..n` first, then rows `1..m` across columns
`0..n` in row-major order — and each such cell is assigned exactly once,
with the value `apply` returned there over the partially filled matrix. -/
theorem C2_align_fill_discipline (ops : EditOps T O) (source target : List T)
    (M : Mat T) (h : align ops source target = some M) :
    AlignSpec ops source target M := by
  refine ⟨align_shape h, align_origin h,
    origin_not_mem_cellOrder source.length target.length,
    nodup_cellOrder source.length target.length,
    fun i j => mem_cellOrder,
    by simp [cellOrder], ?_⟩
  intro i j hi hj hz
  have hmem : (i, j) ∈ cellOrder (source.length + 1) (target.length + 1) :=
    mem_cellOrder.2 ⟨hi, hj, hz⟩
  obtain ⟨cs1, cs2, hsplit, hnot⟩ :=
    split_at_mem hmem (nodup_cellOrder source.length target.length)
  have h' : fillCells ops (cs1 ++ (i, j) :: cs2) (initMat source target) = some M := by
    rw [← hsplit]; exact h
  obtain ⟨Mpre, v, h1, h2, h3⟩ :=
    fillCells_assign ops (initMat_shape source target) hi hj hnot h'
  exact ⟨cs1, cs2, Mpre, v, hsplit, hnot, h1, h2, h3⟩

/-- C3: `align` fails to produce a matrix exactly when `apply` reports no
applicable operation at some (necessarily non-origin) cell reached during
the fill; conversely, a matrix is returned precisely when `apply` yields a
value at every visited cell. -/
theorem C3_apply_none_aborts (ops : EditOps T O) (source target : List T) :
    align ops source target = none ↔
      ∃ cs1 i j cs2 Mpre,
        cellOrder (source.length + 1) (target.length + 1) = cs1 ++ (i, j) :: cs2 ∧
        ¬(i = 0 ∧ j = 0) ∧
        fillCells ops cs1 (initMat source target) = some Mpre ∧
        ops.apply Mpre i j = none := by
  rw [show align ops source target =
    fillCells ops (cellOrder (source.length + 1) (target.length + 1))
      (initMat source target) from rfl]
  rw [fillCells_none_iff]
  constructor
  · rintro ⟨cs1, i, j, cs2, Mpre, hsplit, hfill, hnone⟩
    have hmem : (i, j) ∈ cellOrder (source.length + 1) (target.length + 1) := by
      rw [hsplit]; exact List.mem_append_right _ (List.mem_cons_self _ _)
    exact ⟨cs1, i, j, cs2, Mpre, hsplit, (mem_cellOrder.1 hmem).2.2, hfill, hnone⟩
  · rintro ⟨cs1, i, j, cs2, Mpre, hsplit, _, hfill, hnone⟩
    exact ⟨cs1, i, j, cs2, Mpre, hsplit, hfill, hnone⟩

end MainClaimsFill

section ScriptLemmas

variable {T O : Type}

/-- Outcome characterization of the backward walk: a script is returned
only with the walk ending at the origin; a panic happens exactly at a
non-origin cell where the set finds no operation; the early `None` return
happens exactly when the chosen operation has no predecessor. -/
lemma editGoT_final_char (ops : EditOps T O) (M : Mat T) :
    ∀ (fuel i j : Nat) (acc : List O) (r : ScriptResult O) (fi fj : Nat),
      editGoT ops M fuel i j acc = (r, fi, fj) →
      (∀ s, r = .script s → fi = 0 ∧ fj = 0) ∧
      (r = .panicked → ¬(fi = 0 ∧ fj = 0) ∧ ops.backtrack M fi fj = none) ∧
      (r = .noScript → ∃ op, ops.backtrack M fi fj = some op ∧
        ops.opBacktrack op fi fj = none) := by
  intro fuel
  induction fuel with
  | zero =>
    intro i j acc r fi fj h
    simp only [editGoT, Prod.mk.injEq] at h
    obtain ⟨h1, h2, h3⟩ := h
    subst h1; subst h2; subst h3
    refine ⟨?_, ?_, ?_⟩
    · intro s hs; cases hs
    · intro hp; cases hp
    · intro hn; cases hn
  | succ fuel ih =>
    intro i j acc r fi fj h
    simp only [editGoT] at h
    cases hbt : ops.backtrack M i j with
    | none =>
      simp only [hbt] at h
      by_cases hij : i = 0 ∧ j = 0
      · rw [if_pos hij] at h
        simp only [Prod.mk.injEq] at h
        obtain ⟨h1, h2, h3⟩ := h
        subst h1; subst h2; subst h3
        refine ⟨fun s _ => hij, ?_, ?_⟩
        · intro hp; cases hp
        · intro hn; cases hn
      · rw [if_neg hij] at h
        simp only [Prod.mk.injEq] at h
        obtain ⟨h1, h2, h3⟩ := h
        subst h1; subst h2; subst h3
        refine ⟨?_, fun _ => ⟨hij, hbt⟩, ?_⟩
        · intro s hs; cases hs
        · intro hn; cases hn
    | some op =>
      simp only [hbt] at h
      cases hob : ops.opBacktrack op i j with
      | none =>
        simp only [hob] at h
        simp only [Prod.mk.injEq] at h
        obtain ⟨h1, h2, h3⟩ := h
        subst h1; subst h2; subst h3
        refine ⟨?_, ?_, fun _ => ⟨op, hbt, hob⟩⟩
        · intro s hs; cases hs
        · intro hp; cases hp
      | some p =>
        obtain ⟨i', j'⟩ := p
        simp only [hob] at h
        by_cases hij' : i' = 0 ∧ j' = 0
        · rw [if_pos hij'] at h
          simp only [Prod.mk.injEq] at h
          obtain ⟨h1, h2, h3⟩ := h
          subst h1; subst h2; subst h3
          refine ⟨fun s _ => hij', ?_, ?_⟩
          · intro hp; cases hp
          · intro hn; cases hn
        · rw [if_neg hij'] at h
          exact ih i' j' (acc ++ [op]) r fi fj h

/-- Fuel bound and script-length bound for the walk, under the documented
backtracking precondition. -/
lemma editGoT_fuel_bound (ops : EditOps T O) (M : Mat T)
    (pre : ∀ (op : O) (i j i' j' : Nat), ops.opBacktrack op i j = some (i', j') →
      i' ≤ i ∧ j' ≤ j ∧ (i' < i ∨ j' < j)) :
    ∀ (fuel i j : Nat) (acc : List O), i + j < fuel →
      (editGoT ops M fuel i j acc).1 ≠ .fuelOut ∧
      (∀ s fi fj, editGoT ops M fuel i j acc = (.script s, fi, fj) →
        s.length ≤ acc.length + i + j) := by
  intro fuel
  induction fuel with
  | zero => intro i j acc hlt; omega
  | succ fuel ih =>
    intro i j acc hlt
    simp only [editGoT]
    cases hbt : ops.backtrack M i j with
    | none =>
      simp only [hbt]
      by_cases hij : i = 0 ∧ j = 0
      · rw [if_pos hij]
        refine ⟨by simp, ?_⟩
        intro s fi fj h
        simp only [Prod.mk.injEq, ScriptResult.script.injEq] at h
        rw [← h.1]
        simp only [List.length_reverse]
        omega
      · rw [if_neg hij]
        exact ⟨by simp, fun s fi fj h => by simp at h⟩
    | some op =>
      simp only [hbt]
      cases hob : ops.opBacktrack op i j with
      | none =>
        simp only [hob]
        exact ⟨by simp, fun s fi fj h => by simp at h⟩
      | some p =>
        obtain ⟨i', j'⟩ := p
        simp only [hob]
        have hdec := pre op i j i' j' hob
        by_cases hij' : i' = 0 ∧ j' = 0
        · rw [if_pos hij']
          refine ⟨by simp, ?_⟩
          intro s fi fj h
          simp only [Prod.mk.injEq, ScriptResult.script.injEq] at h
          rw [← h.1]
          simp only [List.length_reverse, List.length_append, List.length_cons,
            List.length_nil]
          omega
        · rw [if_neg hij']
          have hlt' : i' + j' < fuel := by omega
          obtain ⟨h1, h2⟩ := ih i' j' (acc ++ [op]) hlt'
          refine ⟨h1, ?_⟩
          intro s fi fj h
          have := h2 s fi fj h
          simp only [List.length_append, List.length_cons, List.length_nil] at this
          omega

/-- The state-explicit walk returns the matrix unchanged and computes the
same result as the direct embedding. -/
lemma editGoS_eq (ops : EditOps T O) (pair : SeqPair T) :
    ∀ (fuel : Nat) (st : List (List Nat)) (i j : Nat) (acc : List O),
      editGoS ops pair fuel st i j acc =
        (editGoT ops ⟨pair, st⟩ fuel i j acc, st) := by
  intro fuel
  induction fuel with
  | zero => intro st i j acc; rfl
  | succ fuel ih =>
    intro st i j acc
    simp only [editGoS, editGoT]
    cases hbt : ops.backtrack ⟨pair, st⟩ i j with
    | none =>
      simp only [hbt]
      by_cases hij : i = 0 ∧ j = 0 <;> simp [hij]
    | some op =>
      simp only [hbt]
      cases hob : ops.opBacktrack op i j with
      | none => simp only [hob]
      | some p =>
        obtain ⟨i', j'⟩ := p
        simp only [hob]
        by_cases hij' : i' = 0 ∧ j' = 0
        · simp [hij']
        · simp only [if_neg hij']
          exact ih st i' j' (acc ++ [op])

end ScriptLemmas

section MainClaimsScript

variable {T O : Type}

/-- C4 (amended): whenever the backward walk cannot reach cell (0, 0)
exactly, `edit_script` signals an invariant violation, but in two distinct
ways: when the chosen operation has no predecessor it returns `None` to
the caller; when the operation set finds no operation at a non-origin cell
it aborts with an assertion-failure panic, not a `None` return.  A script
is returned only when the walk ends exactly at (0, 0). -/
theorem C4_cannot_backtrack_failure_modes (ops : EditOps T O) (M : Mat T)
    (fuel : Nat) (r : ScriptResult O) (fi fj : Nat)
    (h : editScriptT ops M fuel = (r, fi, fj)) :
    (∀ s, r = .script s → fi = 0 ∧ fj = 0) ∧
    (r = .panicked → ¬(fi = 0 ∧ fj = 0) ∧ ops.backtrack M fi fj = none) ∧
    (r = .noScript → ∃ op, ops.backtrack M fi fj = some op ∧
      ops.opBacktrack op fi fj = none) :=
  editGoT_final_char ops M fuel M.pair.source.length M.pair.target.length [] r fi fj h

/-- C4 counterexample: with an operation set whose `backtrack` never finds
an operation, aligning `[0]` against `[]` succeeds, but `edit_script`
then aborts with the assertion panic at cell (1, 0) — it does not surface
to the caller as returning none, contradicting the claim as stated. -/
theorem C4_counterexample_panics_not_none :
    (align constOps [0] []).map (fun M => editScriptT constOps M 5) =
      some (.panicked, 1, 0) ∧
    (ScriptResult.panicked : ScriptResult Unit) ≠ ScriptResult.noScript := by
  constructor
  · rfl
  · intro h; cases h

/-- Witness for C4: a concrete run in which the walk ends at the origin
and the theorem yields its conclusions there. -/
theorem C4_witness :
    editScriptT constOps (emptyAligned Nat) 5 = (.script [], 0, 0) ∧
    ((0 : Nat) = 0 ∧ (0 : Nat) = 0) :=
  ⟨rfl, (C4_cannot_backtrack_failure_modes constOps (emptyAligned Nat) 5
    (.script []) 0 0 rfl).1 [] rfl⟩

/-- C6: `edit_script` takes the matrix by shared reference and cannot
modify it — the state-explicit rendering returns the matrix unchanged —
and re-invoking it on the resulting state yields the identical result. -/
theorem C6_edit_script_pure_idempotent (ops : EditOps T O) (M : Mat T)
    (fuel : Nat) :
    (editScriptS ops M fuel).2 = M.matrix ∧
    (editScriptS ops ⟨M.pair, (editScriptS ops M fuel).2⟩ fuel).1 =
      (editScriptS ops M fuel).1 := by
  have h1 : editScriptS ops M fuel =
      (editGoT ops M fuel M.pair.source.length M.pair.target.length [], M.matrix) := by
    rw [editScriptS, editGoS_eq]
  refine ⟨by rw [h1], ?_⟩
  rw [h1]
  have h2 : editScriptS ops ⟨M.pair, M.matrix⟩ fuel =
      (editGoT ops M fuel M.pair.source.length M.pair.target.length [], M.matrix) := by
    rw [editScriptS, editGoS_eq]
  exact congrArg Prod.fst h2

/-- C7: for any operation set whose `backtrack` reports no operation at
the origin of the empty/empty matrix, aligning two empty sequences
produces the 1×1 matrix `[[0]]`, distance 0, and an empty edit script. -/
theorem C7_empty_empty (ops : EditOps T O) (fuel : Nat)
    (h : ops.backtrack (emptyAligned T) 0 0 = none) :
    align ops ([] : List T) [] = some (emptyAligned T) ∧
    (emptyAligned T).distance? = some 0 ∧
    (editScriptT ops (emptyAligned T) (fuel + 1)).1 = .script [] := by
  refine ⟨rfl, rfl, ?_⟩
  have h' : ops.backtrack ⟨⟨[], []⟩, [[0]]⟩ 0 0 = none := h
  simp [editScriptT, editGoT, emptyAligned, h']

/-- C8: if every operation's `backtrack-from` moves component-wise ≤ and
strictly down in at least one coordinate, the backward walk terminates
(any fuel beyond m + n is enough and is never exhausted) and a returned
script has length at most m + n. -/
theorem C8_walk_terminates_length_bound (ops : EditOps T O) (M : Mat T)
    (pre : ∀ (op : O) (i j i' j' : Nat), ops.opBacktrack op i j = some (i', j') →
      i' ≤ i ∧ j' ≤ j ∧ (i' < i ∨ j' < j))
    (fuel : Nat)
    (hfuel : M.pair.source.length + M.pair.target.length < fuel) :
    (editScriptT ops M fuel).1 ≠ .fuelOut ∧
    (∀ s fi fj, editScriptT ops M fuel = (.script s, fi, fj) →
      s.length ≤ M.pair.source.length + M.pair.target.length) := by
  obtain ⟨h1, h2⟩ := editGoT_fuel_bound ops M pre fuel
    M.pair.source.length M.pair.target.length [] hfuel
  refine ⟨h1, ?_⟩
  intro s fi fj h
  have := h2 s fi fj h
  simpa using this

/-- C9: if, at the current cell of the walk, the set offers an operation
but that operation reports no predecessor, `edit_script` returns `None`
immediately (no panic, no partial script); in contrast, if the set itself
finds no operation away from the origin, it aborts with the assertion
failure. -/
theorem C9_none_predecessor_returns_none (ops : EditOps T O) (M : Mat T)
    (fuel i j : Nat) (acc : List O) :
    (∀ op, ops.backtrack M i j = some op → ops.opBacktrack op i j = none →
      editGoT ops M (fuel + 1) i j acc = (.noScript, i, j)) ∧
    (ops.backtrack M i j = none → ¬(i = 0 ∧ j = 0) →
      editGoT ops M (fuel + 1) i j acc = (.panicked, i, j)) := by
  constructor
  · intro op hbt hob
    simp [editGoT, hbt, hob]
  · intro hbt hij
    simp [editGoT, hbt, hij]

/-- Witness for C9: both contrasting outcomes on concrete operation sets
at the non-origin cell (1, 0). -/
theorem C9_witness :
    editGoT someOps ⟨⟨[0], []⟩, [[0], [1]]⟩ 3 1 0 [] = (.noScript, 1, 0) ∧
    editGoT constOps ⟨⟨[0], []⟩, [[0], [1]]⟩ 3 1 0 [] = (.panicked, 1, 0) :=
  ⟨(C9_none_predecessor_returns_none someOps ⟨⟨[0], []⟩, [[0], [1]]⟩ 2 1 0 []).1
      () rfl rfl,
   (C9_none_predecessor_returns_none constOps ⟨⟨[0], []⟩, [[0], [1]]⟩ 2 1 0 []).2
      rfl (by simp)⟩

/-- Witness for C7: the constant operation set finds nothing at the
origin, so empty/empty alignment gives distance 0 and the empty script. -/
theorem C7_witness :
    constOps.backtrack (emptyAligned Nat) 0 0 = none ∧
    (align constOps ([] : List Nat) [] = some (emptyAligned Nat) ∧
      (emptyAligned Nat).distance? = some 0 ∧
      (editScriptT constOps (emptyAligned Nat) 5).1 = .script []) :=
  ⟨rfl, C7_empty_empty constOps 4 rfl⟩

/-- Witness for C8: the constant operation set vacuously satisfies the
precondition, and on the empty/empty matrix the walk needs one step. -/
theorem C8_witness :
    ((editScriptT constOps (emptyAligned Nat) 5).1 ≠ .fuelOut ∧
      (∀ s fi fj, editScriptT constOps (emptyAligned Nat) 5 = (.script s, fi, fj) →
        s.length ≤ (emptyAligned Nat).pair.source.length +
          (emptyAligned Nat).pair.target.length)) :=
  C8_walk_terminates_length_bound constOps (emptyAligned Nat)
    (fun op i j i' j' h => by cases h) 5 (by decide)

/-- Witness for C1: a concrete 1-element alignment under `constOps`. -/
theorem C1_witness :
    align constOps [0] [0] = some (Mat.mk ⟨[0], [0]⟩ [[0, 1], [1, 1]]) ∧
    ((Mat.mk ⟨[0], [0]⟩ [[0, 1], [1, 1]]).distance? =
        (Mat.mk ⟨[0], [0]⟩ [[0, 1], [1, 1]]).cell? 1 1 ∧
      ∃ v, (Mat.mk ⟨[0], [0]⟩ [[0, 1], [1, 1]]).cell? 1 1 = some v) :=
  ⟨rfl, C1_distance_is_final_cell constOps [0] [0] (Mat.mk ⟨[0], [0]⟩ [[0, 1], [1, 1]]) rfl⟩

/-- Witness for C2: the same concrete alignment satisfies `AlignSpec`. -/
theorem C2_witness :
    align constOps [0] [0] = some (Mat.mk ⟨[0], [0]⟩ [[0, 1], [1, 1]]) ∧
    AlignSpec constOps [0] [0] (Mat.mk ⟨[0], [0]⟩ [[0, 1], [1, 1]]) :=
  ⟨rfl, C2_align_fill_discipline constOps [0] [0] (Mat.mk ⟨[0], [0]⟩ [[0, 1], [1, 1]]) rfl⟩

/-- Witness for C10: the empty/empty alignment has one row, one column,
and a defined distance. -/
theorem C10_witness :
    align constOps ([] : List Nat) [] = some (emptyAligned Nat) ∧
    (1 ≤ (emptyAligned Nat).matrix.length ∧
      (∀ r ∈ (emptyAligned Nat).matrix, 1 ≤ r.length) ∧
      ∃ v, (emptyAligned Nat).distance? = some v) :=
  ⟨rfl, C10_distance_never_fails constOps [] [] (emptyAligned Nat) rfl⟩

end MainClaimsScript

section LevenLemmas

variable {T : Type} [DecidableEq T]

lemma setBacktrackE_some {cs : LevenCosts} {M : Mat T} {i j : Nat} {op : EOp}
    (h : setBacktrackE cs M i j = some op) :
    ¬(i = 0 ∧ j = 0) ∧ applyAtOp cs M op i j = some (M.cellD i j) := by
  unfold setBacktrackE at h
  by_cases hij : i = 0 ∧ j = 0
  · rw [if_pos hij] at h; cases h
  · rw [if_neg hij] at h
    refine ⟨hij, ?_⟩
    have := List.find?_some h
    simpa using this

lemma applyAtOp_emat_inv {cs : LevenCosts} {M : Mat T} {i j v : Nat}
    (h : applyAtOp cs M .emat i j = some v) :
    1 ≤ i ∧ 1 ≤ j ∧ ∃ a, M.pair.source[i - 1]? = some a ∧
      M.pair.target[j - 1]? = some a ∧ v = cs.cmat + M.cellD (i - 1) (j - 1) := by
  simp only [applyAtOp] at h
  by_cases hij : 1 ≤ i ∧ 1 ≤ j
  · rw [if_pos hij] at h
    refine ⟨hij.1, hij.2, ?_⟩
    cases hs : M.pair.source[i - 1]? with
    | none => simp only [hs] at h; cases h
    | some a =>
      cases ht : M.pair.target[j - 1]? with
      | none => simp only [hs, ht] at h; cases h
      | some b =>
        simp only [hs, ht] at h
        by_cases hab : a = b
        · rw [if_pos hab] at h
          exact ⟨a, rfl, hab ▸ rfl, (Option.some.inj h).symm⟩
        · rw [if_neg hab] at h; cases h
  · rw [if_neg hij] at h; cases h

lemma applyAtOp_esub_inv {cs : LevenCosts} {M : Mat T} {i j v : Nat}
    (h : applyAtOp cs M .esub i j = some v) :
    1 ≤ i ∧ 1 ≤ j ∧ (∃ a, M.pair.source[i - 1]? = some a) ∧
      (∃ b, M.pair.target[j - 1]? = some b) ∧
      v = cs.csub + M.cellD (i - 1) (j - 1) := by
  simp only [applyAtOp] at h
  by_cases hij : 1 ≤ i ∧ 1 ≤ j
  · rw [if_pos hij] at h
    refine ⟨hij.1, hij.2, ?_⟩
    cases hs : M.pair.source[i - 1]? with
    | none => simp only [hs] at h; cases h
    | some a =>
      cases ht : M.pair.target[j - 1]? with
      | none => simp only [hs, ht] at h; cases h
      | some b =>
        simp only [hs, ht] at h
        exact ⟨⟨a, rfl⟩, ⟨b, rfl⟩, (Option.some.inj h).symm⟩
  · rw [if_neg hij] at h; cases h

lemma applyAtOp_eins_inv {cs : LevenCosts} {M : Mat T} {i j v : Nat}
    (h : applyAtOp cs M .eins i j = some v) :
    1 ≤ j ∧ (∃ b, M.pair.target[j - 1]? = some b) ∧
      v = cs.cins + M.cellD i (j - 1) := by
  simp only [applyAtOp] at h
  by_cases hj : 1 ≤ j
  · rw [if_pos hj] at h
    refine ⟨hj, ?_⟩
    cases ht : M.pair.target[j - 1]? with
    | none => simp only [ht] at h; cases h
    | some b =>
      simp only [ht] at h
      exact ⟨⟨b, rfl⟩, (Option.some.inj h).symm⟩
  · rw [if_neg hj] at h; cases h

lemma applyAtOp_edel_inv {cs : LevenCosts} {M : Mat T} {i j v : Nat}
    (h : applyAtOp cs M .edel i j = some v) :
    1 ≤ i ∧ (∃ a, M.pair.source[i - 1]? = some a) ∧
      v = cs.cdel + M.cellD (i - 1) j := by
  simp only [applyAtOp] at h
  by_cases hi : 1 ≤ i
  · rw [if_pos hi] at h
    refine ⟨hi, ?_⟩
    cases hs : M.pair.source[i - 1]? with
    | none => simp only [hs] at h; cases h
    | some a =>
      simp only [hs] at h
      exact ⟨⟨a, rfl⟩, (Option.some.inj h).symm⟩
  · rw [if_neg hi] at h; cases h

lemma opBacktrackFromE_emat_inv {i j i' j' : Nat}
    (h : opBacktrackFromE .emat i j = some (i', j')) :
    1 ≤ i ∧ 1 ≤ j ∧ i' = i - 1 ∧ j' = j - 1 := by
  simp only [opBacktrackFromE] at h
  by_cases hij : 1 ≤ i ∧ 1 ≤ j
  · rw [if_pos hij] at h
    simp only [Option.some.injEq, Prod.mk.injEq] at h
    exact ⟨hij.1, hij.2, h.1.symm, h.2.symm⟩
  · rw [if_neg hij] at h; cases h

lemma opBacktrackFromE_esub_inv {i j i' j' : Nat}
    (h : opBacktrackFromE .esub i j = some (i', j')) :
    1 ≤ i ∧ 1 ≤ j ∧ i' = i - 1 ∧ j' = j - 1 := by
  simp only [opBacktrackFromE] at h
  by_cases hij : 1 ≤ i ∧ 1 ≤ j
  · rw [if_pos hij] at h
    simp only [Option.some.injEq, Prod.mk.injEq] at h
    exact ⟨hij.1, hij.2, h.1.symm, h.2.symm⟩
  · rw [if_neg hij] at h; cases h

lemma opBacktrackFromE_eins_inv {i j i' j' : Nat}
    (h : opBacktrackFromE .eins i j = some (i', j')) :
    1 ≤ j ∧ i' = i ∧ j' = j - 1 := by
  simp only [opBacktrackFromE] at h
  by_cases hj : 1 ≤ j
  · rw [if_pos hj] at h
    simp only [Option.some.injEq, Prod.mk.injEq] at h
    exact ⟨hj, h.1.symm, h.2.symm⟩
  · rw [if_neg hj] at h; cases h

lemma opBacktrackFromE_edel_inv {i j i' j' : Nat}
    (h : opBacktrackFromE .edel i j = some (i', j')) :
    1 ≤ i ∧ i' = i - 1 ∧ j' = j := by
  simp only [opBacktrackFromE] at h
  by_cases hi : 1 ≤ i
  · rw [if_pos hi] at h
    simp only [Option.some.injEq, Prod.mk.injEq] at h
    exact ⟨hi, h.1.symm, h.2.symm⟩
  · rw [if_neg hi] at h; cases h

/-- The operation chosen by the set-level backtracking has its candidate
cost equal to the stored value: stored = incremental cost + predecessor. -/
lemma levenOps_contract (cs : LevenCosts) (M : Mat T) :
    ∀ (i j : Nat) (op : EOp) (i' j' : Nat),
      (levenOps (T := T) cs).backtrack M i j = some op →
      (levenOps (T := T) cs).opBacktrack op i j = some (i', j') →
      M.cellD i j = (levenOps (T := T) cs).opCost op + M.cellD i' j' := by
  intro i j op i' j' hbt hob
  obtain ⟨hij, happ⟩ := setBacktrackE_some hbt
  cases op with
  | emat =>
    obtain ⟨_, _, a, _, _, hv⟩ := applyAtOp_emat_inv happ
    obtain ⟨_, _, rfl, rfl⟩ := opBacktrackFromE_emat_inv hob
    exact hv
  | esub =>
    obtain ⟨_, _, _, _, hv⟩ := applyAtOp_esub_inv happ
    obtain ⟨_, _, rfl, rfl⟩ := opBacktrackFromE_esub_inv hob
    exact hv
  | eins =>
    obtain ⟨_, _, hv⟩ := applyAtOp_eins_inv happ
    obtain ⟨_, rfl, rfl⟩ := opBacktrackFromE_eins_inv hob
    exact hv
  | edel =>
    obtain ⟨_, _, hv⟩ := applyAtOp_edel_inv happ
    obtain ⟨_, rfl, rfl⟩ := opBacktrackFromE_edel_inv hob
    exact hv

end LevenLemmas

section CostLemmas

variable {T O : Type}

lemma cell?_eq_cellD {M : Mat T} {i j v : Nat} (h : M.cell? i j = some v) :
    M.cellD i j = v := by
  simp [Mat.cellD, h]

lemma take_push {α : Type} {l : List α} {j : Nat} {b : α} (h : l[j]? = some b) :
    l.take (j + 1) = l.take j ++ [b] := by
  rw [List.take_succ, h]
  rfl

/-- Telescoping of costs along the backward walk: the script cost plus the
final cell value equals the starting cell value plus the cost accumulated
so far, whenever each chosen operation satisfies the stored-value
contract. -/
lemma editGoT_cost (ops : EditOps T O) (M : Mat T)
    (Hc : ∀ (i j : Nat) (op : O) (i' j' : Nat), ops.backtrack M i j = some op →
      ops.opBacktrack op i j = some (i', j') →
      M.cellD i j = ops.opCost op + M.cellD i' j') :
    ∀ (fuel i j : Nat) (acc s : List O) (fi fj : Nat),
      editGoT ops M fuel i j acc = (.script s, fi, fj) →
      (s.map ops.opCost).sum + M.cellD fi fj =
        M.cellD i j + (acc.map ops.opCost).sum := by
  intro fuel
  induction fuel with
  | zero => intro i j acc s fi fj h; simp [editGoT] at h
  | succ fuel ih =>
    intro i j acc s fi fj h
    simp only [editGoT] at h
    cases hbt : ops.backtrack M i j with
    | none =>
      simp only [hbt] at h
      by_cases hij : i = 0 ∧ j = 0
      · rw [if_pos hij] at h
        simp only [Prod.mk.injEq, ScriptResult.script.injEq] at h
        obtain ⟨h1, h2, h3⟩ := h
        subst h2; subst h3
        rw [← h1]
        simp only [List.map_reverse, List.sum_reverse]
        omega
      · rw [if_neg hij] at h; simp at h
    | some op =>
      simp only [hbt] at h
      cases hob : ops.opBacktrack op i j with
      | none => simp only [hob] at h; simp at h
      | some p =>
        obtain ⟨i', j'⟩ := p
        simp only [hob] at h
        have hc := Hc i j op i' j' hbt hob
        by_cases hij' : i' = 0 ∧ j' = 0
        · rw [if_pos hij'] at h
          simp only [Prod.mk.injEq, ScriptResult.script.injEq] at h
          obtain ⟨h1, h2, h3⟩ := h
          subst h2; subst h3
          rw [← h1, hc]
          simp only [List.map_reverse, List.sum_reverse, List.map_append,
            List.sum_append, List.map_cons, List.map_nil, List.sum_cons,
            List.sum_nil]
          omega
        · rw [if_neg hij'] at h
          have hrec := ih i' j' (acc ++ [op]) s fi fj h
          rw [hc]
          simp only [List.map_append, List.sum_append, List.map_cons,
            List.map_nil, List.sum_cons, List.sum_nil] at hrec
          omega

end CostLemmas

section ReplayLemmas

variable {T : Type} [DecidableEq T]

lemma replaySeg_append (source target : List T) :
    ∀ (xs ys : List EOp) (i j : Nat) (out : List T),
      replaySeg source target i j (xs ++ ys) out =
        (replaySeg source target i j xs out).bind
          (fun p => replaySeg source target p.1 p.2.1 ys p.2.2) := by
  intro xs
  induction xs with
  | nil => intro ys i j out; simp [replaySeg]
  | cons op rest ih =>
    intro ys i j out
    cases op with
    | emat =>
      simp only [List.cons_append, replaySeg]
      cases hs : source[i]? with
      | none => rfl
      | some a =>
        cases ht : target[j]? with
        | none => rfl
        | some b =>
          simp only [Option.some_bind]
          by_cases hab : a = b
          · rw [if_pos hab, if_pos hab]
            exact ih ys (i + 1) (j + 1) (out ++ [a])
          · rw [if_neg hab, if_neg hab]
            rfl
    | esub =>
      simp only [List.cons_append, replaySeg]
      cases hs : source[i]? with
      | none => rfl
      | some a =>
        cases ht : target[j]? with
        | none => rfl
        | some b =>
          simp only [Option.some_bind]
          exact ih ys (i + 1) (j + 1) (out ++ [b])
    | eins =>
      simp only [List.cons_append, replaySeg]
      cases ht : target[j]? with
      | none => rfl
      | some b =>
        simp only [Option.some_bind]
        exact ih ys i (j + 1) (out ++ [b])
    | edel =>
      simp only [List.cons_append, replaySeg]
      cases hs : source[i]? with
      | none => rfl
      | some a =>
        simp only [Option.some_bind]
        exact ih ys (i + 1) j out

/-- One forward replay step matches one backward-walk step: if an
operation is applicable at (i, j) and its predecessor is (i', j'), then
replaying it from (i', j') with output `target.take j'` lands on (i, j)
with output `target.take j`. -/
lemma replay_step {cs : LevenCosts} {M : Mat T} {op : EOp} {i j i' j' v : Nat}
    (happ : applyAtOp cs M op i j = some v)
    (hob : opBacktrackFromE op i j = some (i', j')) :
    replaySeg M.pair.source M.pair.target i' j' [op] (M.pair.target.take j') =
      some (i, j, M.pair.target.take j) := by
  cases op with
  | emat =>
    obtain ⟨hi, hj, a, hs, ht, _⟩ := applyAtOp_emat_inv happ
    obtain ⟨_, _, hi', hj'⟩ := opBacktrackFromE_emat_inv hob
    subst hi'; subst hj'
    have h1 : i - 1 + 1 = i := Nat.sub_add_cancel hi
    have h2 : j - 1 + 1 = j := Nat.sub_add_cancel hj
    simp only [replaySeg, hs, ht, Option.some_bind, if_true]
    rw [← take_push ht, h1, h2]
  | esub =>
    obtain ⟨hi, hj, ⟨a, hs⟩, ⟨b, ht⟩, _⟩ := applyAtOp_esub_inv happ
    obtain ⟨_, _, hi', hj'⟩ := opBacktrackFromE_esub_inv hob
    subst hi'; subst hj'
    have h1 : i - 1 + 1 = i := Nat.sub_add_cancel hi
    have h2 : j - 1 + 1 = j := Nat.sub_add_cancel hj
    simp only [replaySeg, hs, ht, Option.some_bind]
    rw [← take_push ht, h1, h2]
  | eins =>
    obtain ⟨hj, ⟨b, ht⟩, _⟩ := applyAtOp_eins_inv happ
    obtain ⟨_, hi', hj'⟩ := opBacktrackFromE_eins_inv hob
    subst hi'; subst hj'
    have h2 : j - 1 + 1 = j := Nat.sub_add_cancel hj
    simp only [replaySeg, ht, Option.some_bind]
    rw [← take_push ht, h2]
  | edel =>
    obtain ⟨hi, ⟨a, hs⟩, _⟩ := applyAtOp_edel_inv happ
    obtain ⟨_, hi', hj'⟩ := opBacktrackFromE_edel_inv hob
    subst hi'; subst hj'
    have h1 : i - 1 + 1 = i := Nat.sub_add_cancel hi
    simp only [replaySeg, hs, Option.some_bind]
    rw [h1]

/-- The backward walk, when it yields a script, yields exactly a forward
path: the pushed operations (reversed on exit) replay from (0, 0) to the
walk's starting cell, reproducing the corresponding target prefix. -/
lemma editGoT_replay (cs : LevenCosts) (M : Mat T) :
    ∀ (fuel i j : Nat) (acc s : List EOp) (fi fj : Nat),
      editGoT (levenOps (T := T) cs) M fuel i j acc = (.script s, fi, fj) →
      ∃ seg, s = seg ++ acc.reverse ∧
        replaySeg M.pair.source M.pair.target 0 0 seg [] =
          some (i, j, M.pair.target.take j) := by
  intro fuel
  induction fuel with
  | zero => intro i j acc s fi fj h; simp [editGoT] at h
  | succ fuel ih =>
    intro i j acc s fi fj h
    simp only [editGoT] at h
    cases hbt : (levenOps (T := T) cs).backtrack M i j with
    | none =>
      simp only [hbt] at h
      by_cases hij : i = 0 ∧ j = 0
      · rw [if_pos hij] at h
        simp only [Prod.mk.injEq, ScriptResult.script.injEq] at h
        obtain ⟨h1, h2, h3⟩ := h
        obtain ⟨rfl, rfl⟩ := hij
        refine ⟨[], by rw [← h1]; simp, ?_⟩
        simp [replaySeg]
      · rw [if_neg hij] at h; simp at h
    | some op =>
      simp only [hbt] at h
      have hbt' : setBacktrackE cs M i j = some op := hbt
      obtain ⟨hne, happ⟩ := setBacktrackE_some hbt'
      cases hob : (levenOps (T := T) cs).opBacktrack op i j with
      | none => simp only [hob] at h; simp at h
      | some p =>
        obtain ⟨i', j'⟩ := p
        have hob' : opBacktrackFromE op i j = some (i', j') := hob
        simp only [hob] at h
        by_cases hij' : i' = 0 ∧ j' = 0
        · rw [if_pos hij'] at h
          simp only [Prod.mk.injEq, ScriptResult.script.injEq] at h
          obtain ⟨h1, h2, h3⟩ := h
          refine ⟨[op], by rw [← h1]; simp, ?_⟩
          have hstep := replay_step happ hob'
          obtain ⟨rfl, rfl⟩ := hij'
          simpa using hstep
        · rw [if_neg hij'] at h
          obtain ⟨seg', hseq, hrep⟩ := ih i' j' (acc ++ [op]) s fi fj h
          refine ⟨seg' ++ [op], ?_, ?_⟩
          · rw [hseq]; simp
          · rw [replaySeg_append, hrep]
            simpa using replay_step happ hob'

end ReplayLemmas

section MainClaimC5

/-- C5: for the spec-modelled standard operation set (any costs, any
element type), whenever `edit_script` returns a script from an aligned
matrix, the sum of the script's incremental costs equals `distance()`, and
replaying the script in the returned source-to-target order against the
source sequence produces exactly the target sequence. -/
theorem C5_script_cost_and_validity {T : Type} [DecidableEq T]
    (cs : LevenCosts) (source target : List T) (M : Mat T) (fuel : Nat)
    (s : List EOp) (fi fj : Nat)
    (halign : align (levenOps (T := T) cs) source target = some M)
    (hscript : editScriptT (levenOps (T := T) cs) M fuel = (.script s, fi, fj)) :
    M.distance? = some ((s.map (opCostE cs)).sum) ∧
    replay s source target = some target := by
  have hpair : M.pair = ⟨source, target⟩ := align_pair halign
  have hsrc : M.pair.source = source := by rw [hpair]
  have htgt : M.pair.target = target := by rw [hpair]
  have hchar := editGoT_final_char (levenOps (T := T) cs) M fuel
    M.pair.source.length M.pair.target.length [] (.script s) fi fj hscript
  obtain ⟨hfi, hfj⟩ := hchar.1 s rfl
  subst hfi; subst hfj
  have h00 : M.cellD 0 0 = 0 := cell?_eq_cellD (align_origin halign)
  constructor
  · have hcost := editGoT_cost (levenOps (T := T) cs) M
      (levenOps_contract cs M) fuel M.pair.source.length M.pair.target.length
      [] s 0 0 hscript
    rw [h00] at hcost
    simp only [List.map_nil, List.sum_nil] at hcost
    rw [distance?_of_shape (align_shape halign)]
    obtain ⟨v, hv⟩ := cell?_isSome_of_shape (align_shape halign)
      (Nat.le_refl _) (Nat.le_refl _)
    rw [hv]
    have hvD : M.cellD source.length target.length = v := cell?_eq_cellD hv
    rw [hsrc, htgt] at hcost
    have : (s.map (levenOps (T := T) cs).opCost).sum = v := by omega
    rw [← this]
    rfl
  · obtain ⟨seg, hseq, hrep⟩ := editGoT_replay cs M fuel
      M.pair.source.length M.pair.target.length [] s 0 0 hscript
    have hs : s = seg := by simpa using hseq
    subst hs
    rw [hsrc, htgt] at hrep
    simp only [replay, hrep, Option.some_bind]
    simp [List.take_length]

end MainClaimC5

/-- Witness for C5: a concrete one-element alignment with unit costs whose
script is a single match of total cost 0. -/
theorem C5_witness :
    align (levenOps (T := Nat) ⟨0, 1, 1, 1⟩) [0] [0] =
      some (Mat.mk ⟨[0], [0]⟩ [[0, 1], [1, 0]]) ∧
    editScriptT (levenOps (T := Nat) ⟨0, 1, 1, 1⟩)
        (Mat.mk ⟨[0], [0]⟩ [[0, 1], [1, 0]]) 5 = (.script [.emat], 0, 0) ∧
    ((Mat.mk ⟨[0], [0]⟩ [[0, 1], [1, 0]]).distance? =
        some (([EOp.emat].map (opCostE ⟨0, 1, 1, 1⟩)).sum) ∧
      replay [EOp.emat] [0] [0] = some [0]) :=
  ⟨rfl, rfl, C5_script_cost_and_validity ⟨0, 1, 1, 1⟩ [0] [0]
    (Mat.mk ⟨[0], [0]⟩ [[0, 1], [1, 0]]) 5 [.emat] 0 0 rfl rfl⟩

end Seqalign
